import Mathlib

set_option maxRecDepth 8000

namespace Embedinator

/-! # Shallow embedding of the embedinator resource emitters

Byte buffers are lists of Nat (each entry a byte value); machine integers
are Nat with explicit truncation where the Rust code converts.  Fallible
operations (Rust panics) return Option. -/

/-- Little-endian bytes of a u16 value (u16 to_le_bytes). -/
def le16 (v : Nat) : List Nat := [v % 256, v / 256 % 256]

/-- Little-endian bytes of a u32 value (u32 to_le_bytes). -/
def le32 (v : Nat) : List Nat :=
  [v % 256, v / 256 % 256, v / 65536 % 256, v / 16777216 % 256]

/-! ## writing.rs: the Vec-backed ResourceFile writer -/

/-- The byte buffer of the writing.rs ResourceFile; pos() is its length. -/
abbrev WBuf := List Nat

def wU8 (b : WBuf) (v : Nat) : WBuf := b ++ [v % 256]

def wU16 (b : WBuf) (v : Nat) : WBuf := b ++ le16 v

def wU32 (b : WBuf) (v : Nat) : WBuf := b ++ le32 v

/-- writing.rs realign: extend by (4 - (pos & 0b11)) & 0b11 zero bytes. -/
def wRealign (b : WBuf) : WBuf :=
  b ++ List.replicate ((4 - (b.length &&& 3)) &&& 3) 0

/-- Overwrite bytes at loc (Vec slice copy_from_slice); indexing out of
range is a Rust panic, modelled as none. -/
def wUpdate (b : WBuf) (loc : Nat) (bs : List Nat) : Option WBuf :=
  if loc + bs.length ≤ b.length then
    some (b.take loc ++ bs ++ b.drop (loc + bs.length))
  else none

def wUpdateU16 (b : WBuf) (loc v : Nat) : Option WBuf := wUpdate b loc (le16 v)

def wUpdateU32 (b : WBuf) (loc v : Nat) : Option WBuf := wUpdate b loc (le32 v)

/-- UTF-16 code units of one char (str encode_utf16). -/
def utf16Units (c : Char) : List Nat :=
  if c.toNat < 65536 then [c.toNat]
  else [55296 + (c.toNat - 65536) / 1024, 56320 + (c.toNat - 65536) % 1024]

/-- UTF-16 code units of a string. -/
def strUtf16 (s : String) : List Nat := s.data.flatMap utf16Units

/-- UTF-16LE byte image of a string (no terminator). -/
def strUtf16Bytes (s : String) : List Nat := (strUtf16 s).flatMap le16

/-- writing.rs write_utf16: each code unit little-endian, then a 0 u16. -/
def wWriteUtf16 (b : WBuf) (s : String) : WBuf :=
  ((strUtf16 s).foldl wU16 b) ++ le16 0

/-- writing.rs FieldValue: no value, a nested binary header writer, or an
explicitly supplied wValueLength. -/
inductive WFieldValue where
  | fnone : WFieldValue
  | fheader : (WBuf → Option WBuf) → WFieldValue
  | fother : Nat → WFieldValue

/-- writing.rs write_field: 6-byte record header (wLength, wValueLength,
wType), UTF-16 key, 4-alignment, value, children; both length slots are
back-patched, and a length that does not fit u16 (try_into expect) is a
panic, modelled as none. -/
def wWriteField (fieldType : Nat) (key : String) (value : WFieldValue)
    (body : WBuf → Option WBuf) (b : WBuf) : Option WBuf := do
  let b := wRealign b
  let fieldStart := b.length
  let fieldLengthPos := b.length
  let b := wU16 b 0
  let headerLengthPos := b.length
  let b := wU16 b 0
  let b := wU16 b fieldType
  let b := wWriteUtf16 b key
  let b := wRealign b
  let b ← match value with
    | .fnone => pure b
    | .fheader f => do
      let headerStart := b.length
      let b ← f b
      let headerLength := b.length - headerStart
      if headerLength < 65536 then
        let b ← wUpdateU16 b headerLengthPos headerLength
        pure (wRealign b)
      else none
    | .fother i => wUpdateU16 b headerLengthPos i
  let b ← body b
  let fieldLength := b.length - fieldStart
  if fieldLength < 65536 then wUpdateU16 b fieldLengthPos fieldLength
  else none

/-! ## lib.rs: resource types and the builder data model -/

inductive ResourceType where
  | rnone : ResourceType
  | version : ResourceType
  | icon : ResourceType
  | iconGroup : ResourceType
  | manifest : ResourceType
deriving DecidableEq

def ResourceType.toU16 : ResourceType → Nat
  | .rnone => 0x0
  | .version => 0x10
  | .icon => 0x3
  | .iconGroup => 0xE
  | .manifest => 0x18

/-- lib.rs ResourceType::flags (the .res memory-flags word). -/
def ResourceType.memFlags : ResourceType → Nat
  | .rnone => 0x0
  | .version => 0x10 ||| 0x20
  | .icon => 0x1000 ||| 0x10
  | .iconGroup => 0x1000 ||| 0x10 ||| 0x20
  | .manifest => 0x10 ||| 0x20

/-- writing.rs write_resource: a .res record with back-patched data_size
and header_size slots and a trailing 4-alignment. -/
def wWriteResource (ty : ResourceType) (name : Nat) (body : WBuf → Option WBuf)
    (b : WBuf) : Option WBuf := do
  let headerStart := b.length
  let dataSizeLoc := b.length
  let b := wU32 b 0
  let headerSizeLoc := b.length
  let b := wU32 b 0
  let b := wU16 b 0xffff
  let b := wU16 b ty.toU16
  let b := wU16 b 0xffff
  let b := wU16 b name
  let b := wRealign b
  let b := wU32 b 0
  let b := wU16 b ty.memFlags
  let b := wU16 b (if ty = ResourceType.rnone then 0x0 else 0x409)
  let b := wU32 b 0
  let b := wU32 b 0
  let headerLen := b.length - headerStart
  let b ← wUpdateU32 b headerSizeLoc headerLen
  let dataStart := b.length
  let b ← body b
  let dataLen := b.length - dataStart
  let b ← wUpdateU32 b dataSizeLoc dataLen
  pure (wRealign b)

structure VersionQuad where
  major : Nat
  minor : Nat
  patch : Nat
  build : Nat
deriving DecidableEq

/-- Index into a 4-element version array.  Modelled from the spec: the
FixedVersionInfo declaration itself is missing from the sources (writing.rs
and binary.rs only consume it); per the spec a version number is the four
16-bit fields (major, minor, patch, build), so the [u16; 4] arrays hold
[major, minor, patch, build]. -/
def VersionQuad.arr (q : VersionQuad) : Nat → Nat
  | 0 => q.major
  | 1 => q.minor
  | 2 => q.patch
  | 3 => q.build
  | _ => 0

/-- The FixedVersionInfo consumed by writing.rs write_version: two version
arrays and the bit-ORed file_flags word (declaration modelled from the
spec, see VersionQuad.arr). -/
structure FixedVersionInfo where
  fileVersion : VersionQuad
  productVersion : VersionQuad
  fileFlags : Nat
deriving DecidableEq

/-- The VS_FIXEDFILEINFO body written by the header closure of
writing.rs write_version (also identical in binary.rs). -/
def writeFixedFileInfo (fixed : FixedVersionInfo) (b : WBuf) : WBuf :=
  let b := wU32 b 0xFEEF04BD
  let b := wU32 b (1 <<< 16)
  let b := wU16 b (fixed.fileVersion.arr 1)
  let b := wU16 b (fixed.fileVersion.arr 0)
  let b := wU16 b (fixed.fileVersion.arr 3)
  let b := wU16 b (fixed.fileVersion.arr 2)
  let b := wU16 b (fixed.productVersion.arr 1)
  let b := wU16 b (fixed.productVersion.arr 0)
  let b := wU16 b (fixed.productVersion.arr 3)
  let b := wU16 b (fixed.productVersion.arr 2)
  let b := wU32 b 0x3f
  let b := wU32 b fixed.fileFlags
  let b := wU32 b 0x00040004
  let b := wU32 b 0x00000001
  let b := wU32 b 0x0
  let b := wU32 b 0x0
  wU32 b 0x0

def sVSVersionInfo : String := "VS_VERSION_INFO"

def sStringFileInfo : String := "StringFileInfo"

def sStringTableKey : String := "000004b0"

def sVarFileInfo : String := "VarFileInfo"

def sTranslation : String := "Translation"

def sProductVersion : String := "ProductVersion"

def sFileVersion : String := "FileVersion"

def sProductName : String := "ProductName"

def sFileDescription : String := "FileDescription"

def sZeroOneZero : String := "0.1.0"

def sRustyTwinkleTray : String := "rusty-twinkle-tray"

/-- The string table hard-coded in writing.rs write_version (the local
fields array; binary.rs has the same list). -/
def versionStringFields : List (String × String) :=
  [(sProductVersion, sZeroOneZero), (sFileVersion, sZeroOneZero),
   (sProductName, sRustyTwinkleTray), (sFileDescription, sRustyTwinkleTray)]

/-- One iteration of the writing.rs string-table loop: a String record
whose wValueLength is the UTF-16 unit count of the value plus one. -/
def wWriteStringEntry (b : WBuf) (kv : String × String) : Option WBuf :=
  let l := (strUtf16 kv.2).length + 1
  if l < 65536 then
    wWriteField 1 kv.1 (WFieldValue.fother l) (fun b => some (wWriteUtf16 b kv.2)) b
  else none

/-- writing.rs write_version: the Version resource record holding the
VS_VERSION_INFO tree (fixed info, StringFileInfo with the 000004b0
StringTable, VarFileInfo with the Translation value). -/
def writeVersion (fixed : FixedVersionInfo) (b : WBuf) : Option WBuf := do
  let b ← wWriteResource ResourceType.version 1 (fun b =>
    wWriteField 0 sVSVersionInfo
      (WFieldValue.fheader (fun b => some (writeFixedFileInfo fixed b)))
      (fun b => do
        let b ← wWriteField 1 sStringFileInfo WFieldValue.fnone (fun b =>
          wWriteField 1 sStringTableKey WFieldValue.fnone (fun b =>
            versionStringFields.foldlM wWriteStringEntry b) b) b
        wWriteField 1 sVarFileInfo WFieldValue.fnone (fun b =>
          wWriteField 0 sTranslation
            (WFieldValue.fheader (fun b => some (wU32 b 0x04b00000)))
            (fun b => some b) b) b) b) b
  pure (wRealign b)

/-- The default FixedVersionInfo (all versions zero, no flags), as produced
for a ResourceBuilder::default() whose strings map is empty. -/
def fixedZero : FixedVersionInfo := ⟨⟨0, 0, 0, 0⟩, ⟨0, 0, 0, 0⟩, 0⟩

/-! ## binary.rs / coff.rs align_to -/

/-- binary.rs BinaryWriter::align_to: reserve (i - pos % i) % i zero bytes
(the Vec-backed writers implement reserve by appending zeros). -/
def binAlignTo (b : WBuf) (i : Nat) : WBuf :=
  b ++ List.replicate ((i - b.length % i) % i) 0

/-- coff.rs BinaryWriter::align_to: reserve i - pos % i zero bytes (no
outer modulus). -/
def coffAlignTo (b : WBuf) (i : Nat) : WBuf :=
  b ++ List.replicate (i - b.length % i) 0

/-- res.rs impl BinaryWriter for ResourceFile, write_bytes_at: overwrite a
slice of the Vec; a region past the end of the buffer is a Rust panic
(none).  pos() of this writer is the buffer length. -/
def rfWriteBytesAt (b : WBuf) (index : Nat) (bs : List Nat) : Option WBuf :=
  wUpdate b index bs

/-! ## binary.rs BinarySlice (scoped sub-writer) -/

structure BinarySlice where
  start : Nat
  length : Nat
  pos : Nat
deriving DecidableEq

/-- BinaryWriter::slice: a fresh window with window-relative pos 0. -/
def mkSlice (index length : Nat) : BinarySlice := ⟨index, length, 0⟩

/-- BinarySlice::write_bytes over a Vec-backed parent: the assert that the
write stays inside the window (a panic when violated, none), then the
parent write_bytes_at, then the window-relative pos advance. -/
def sliceWriteBytes (parent : WBuf) (s : BinarySlice) (bs : List Nat) :
    Option (WBuf × BinarySlice) :=
  if s.pos + bs.length ≤ s.length then
    (rfWriteBytesAt parent (s.start + s.pos) bs).map
      (fun p => (p, ⟨s.start, s.length, s.pos + bs.length⟩))
  else none

/-- The Drop impl of BinarySlice: assert_eq!(pos, length). -/
def sliceDropOk (s : BinarySlice) : Prop := s.pos = s.length

instance : DecidablePred sliceDropOk :=
  fun s => inferInstanceAs (Decidable (s.pos = s.length))

/-- A sequence of write_bytes calls on one scoped slice. -/
def sliceRun (parent : WBuf) (s : BinarySlice) :
    List (List Nat) → Option (WBuf × BinarySlice)
  | [] => some (parent, s)
  | bs :: rest => (sliceWriteBytes parent s bs).bind (fun p => sliceRun p.1 p.2 rest)

/-! ## lib.rs builder and compile_to_res -/

inductive FileType where
  | exe : FileType
  | dll : FileType
deriving DecidableEq

inductive FileFlag where
  | debug : FileFlag
  | patched : FileFlag
  | prerelease : FileFlag
  | privateBuild : FileFlag
  | specialBuild : FileFlag
deriving DecidableEq

/-- lib.rs VersionInfo: the builder-side aggregate (the strings map is a
BTreeMap, modelled as its sorted association list). -/
structure VersionInfo where
  fileVersion : VersionQuad
  productVersion : VersionQuad
  fileType : FileType
  flags : List FileFlag
  strings : List (String × String)
deriving DecidableEq

structure Icon where
  bytes : List Nat
deriving DecidableEq

structure IconGroupEntry where
  iconId : Nat
  iconSize : Nat
deriving DecidableEq

structure ResourceBuilder where
  version : VersionInfo
  iconGroups : List (Nat × List IconGroupEntry)
  icons : List (Nat × Icon)
  manifest : Option String
deriving DecidableEq

/-- The payload argument handed to write_resource by compile_to_res. -/
inductive ResPayload where
  | unitPayload : ResPayload
  | versionPayload : VersionInfo → ResPayload
  | iconPayload : List Nat → ResPayload
  | iconGroupPayload : List IconGroupEntry → ResPayload
  | manifestPayload : String → ResPayload
deriving DecidableEq

structure ResRecord where
  ty : ResourceType
  id : Nat
  payload : ResPayload
deriving DecidableEq

/-- binary.rs impl BinaryWritable for (): writes nothing. -/
def unitWriteTo (b : WBuf) : WBuf := b

/-- One write_resource call at the record level: append one record. -/
def resAppendRecord (st : List ResRecord) (ty : ResourceType) (id : Nat)
    (p : ResPayload) : List ResRecord := st ++ [⟨ty, id, p⟩]

/-- lib.rs compile_to_res: sentinel, version, icons, icon groups, manifest
(when set), in that order. -/
def compileToRes (b : ResourceBuilder) : List ResRecord :=
  let res : List ResRecord := []
  let res := resAppendRecord res ResourceType.rnone 0 ResPayload.unitPayload
  let res := resAppendRecord res ResourceType.version 1 (ResPayload.versionPayload b.version)
  let res := b.icons.foldl
    (fun res p => resAppendRecord res ResourceType.icon p.1 (ResPayload.iconPayload p.2.bytes)) res
  let res := b.iconGroups.foldl
    (fun res p => resAppendRecord res ResourceType.iconGroup p.1 (ResPayload.iconGroupPayload p.2)) res
  match b.manifest with
  | some m => resAppendRecord res ResourceType.manifest 1 (ResPayload.manifestPayload m)
  | none => res

/-! ## coff2/writer.rs FileWriter -/

structure FileWriter where
  data : List Nat
  currentPosition : Nat
  sectionStart : Nat
deriving DecidableEq

def fwNew : FileWriter := ⟨[], 0, 0⟩

/-- coff2 FileWriter::write_bytes_at: resize (zero fill) whenever the region
reaches past the end of the buffer, then overwrite the slice.  Never fails. -/
def fwWriteBytesAt (fw : FileWriter) (index : Nat) (bs : List Nat) : FileWriter :=
  let d := if fw.data.length < index + bs.length
    then fw.data ++ List.replicate (index + bs.length - fw.data.length) 0
    else fw.data
  ⟨d.take index ++ bs ++ d.drop (index + bs.length), fw.currentPosition, fw.sectionStart⟩

/-- coff2 FileWriter::write_bytes: write at the current position, advance. -/
def fwWriteBytes (fw : FileWriter) (bs : List Nat) : FileWriter :=
  let fw2 := fwWriteBytesAt fw fw.currentPosition bs
  ⟨fw2.data, fw.currentPosition + bs.length, fw2.sectionStart⟩

/-- coff2 FileWriter::reserve: only advances the position. -/
def fwReserve (fw : FileWriter) (n : Nat) : FileWriter :=
  ⟨fw.data, fw.currentPosition + n, fw.sectionStart⟩

def fwSetPos (fw : FileWriter) (p : Nat) : FileWriter :=
  ⟨fw.data, p, fw.sectionStart⟩

def fwMarkSectionStart (fw : FileWriter) : FileWriter :=
  ⟨fw.data, fw.currentPosition, fw.currentPosition⟩

def fwCurrentOffset (fw : FileWriter) : Nat :=
  fw.currentPosition - fw.sectionStart

def fwWriteU8 (fw : FileWriter) (v : Nat) : FileWriter := fwWriteBytes fw [v % 256]

def fwWriteU16 (fw : FileWriter) (v : Nat) : FileWriter := fwWriteBytes fw (le16 v)

def fwWriteU32 (fw : FileWriter) (v : Nat) : FileWriter := fwWriteBytes fw (le32 v)

/-- The binary.rs trait default align_to as seen by the coff2 FileWriter. -/
def fwAlignTo (fw : FileWriter) (i : Nat) : FileWriter :=
  fwReserve fw ((i - fw.currentPosition % i) % i)

/-! ## coff2/mod.rs: resource table, symbols, relocations -/

inductive TargetType where
  | aarch64 : TargetType
  | i386 : TargetType
  | x8664 : TargetType
deriving DecidableEq

def TargetType.id : TargetType → Nat
  | .aarch64 => 0xaa64
  | .i386 => 0x014c
  | .x8664 => 0x8664

/-- RelocationType::Rva32 id per target. -/
def relocationTypeId : TargetType → Nat
  | .aarch64 => 0x0002
  | .i386 => 0x0007
  | .x8664 => 0x0003

structure ResourceLocation where
  offset : Nat
  size : Nat
  symbolId : Nat
deriving DecidableEq

def hexDigit (n : Nat) : Nat := if n < 10 then 48 + n else 55 + n

/-- The generated resource symbol name: a dollar sign, R, six uppercase hex
digits of the payload offset, as 8 ASCII bytes (an offset needing more than
six digits would overflow the 8-byte buffer and panic in the source; no
claim depends on that case). -/
def symbolName (offset : Nat) : List Nat :=
  [36, 82] ++ ((List.range 6).reverse.map (fun i => hexDigit (offset / 16 ^ i % 16)))

inductive CoffSymbol where
  | placeholder : CoffSymbol
  | sectionSym : List Nat → Nat → CoffSymbol
  | sectionAux : Nat → Nat → CoffSymbol
  | resource : List Nat → Nat → Nat → CoffSymbol
deriving DecidableEq

/-- The three-level resource table of CoffWriter2: BTreeMaps modelled as
sorted association lists.  The outer map is keyed by the derived Ord of
ResourceType, which compares discriminant values, i.e. exactly the numeric
resource-type ids, so keys are those numbers directly. -/
abbrev CoffTable := List (Nat × List (Nat × List (Nat × ResourceLocation)))

structure Coff2State where
  targetType : TargetType
  table : CoffTable
  data : FileWriter
  symbols : List CoffSymbol
deriving DecidableEq

def lookupA {β : Type} (k : Nat) : List (Nat × β) → Option β
  | [] => none
  | p :: t => if p.1 = k then some p.2 else lookupA k t

/-- BTreeMap::insert on a sorted association list: replaces the value of an
existing key, otherwise inserts keeping the keys sorted. -/
def insertSorted {β : Type} (k : Nat) (v : β) : List (Nat × β) → List (Nat × β)
  | [] => [(k, v)]
  | p :: t =>
    if k < p.1 then (k, v) :: p :: t
    else if k = p.1 then (k, v) :: t
    else p :: insertSorted k v t

/-- BTreeMap entry().or_default() followed by an in-place update. -/
def updateAssoc {β : Type} (k : Nat) (dflt : β) (f : β → β)
    (m : List (Nat × β)) : List (Nat × β) :=
  insertSorted k (f ((lookupA k m).getD dflt)) m

/-- coff2 CoffWriter2::new: empty table, fresh data writer, four
placeholder symbols. -/
def coffNew (t : TargetType) : Coff2State :=
  ⟨t, [], fwNew, [.placeholder, .placeholder, .placeholder, .placeholder]⟩

/-- coff2 CoffWriter2::add_resource: append the payload bytes to the data
writer, align it to 8, create the resource symbol, and insert the location
under (type, id, language 0x0409).  The payload write is modelled as the
byte sequence the BinaryWritable serializer emits. -/
def addResource (c : Coff2State) (ty : ResourceType) (id : Nat)
    (payload : List Nat) : Coff2State :=
  let offset := c.data.currentPosition
  let data := fwWriteBytes c.data payload
  let size := data.currentPosition - offset
  let data := fwAlignTo data 8
  let symbolId := c.symbols.length
  let symbols := c.symbols ++ [.resource (symbolName offset) offset 2]
  let table := updateAssoc ty.toU16 [] (fun mid =>
    updateAssoc id [] (fun inner =>
      insertSorted 0x409 ⟨offset, size, symbolId⟩ inner) mid) c.table
  ⟨c.targetType, table, data, symbols⟩

structure AddCall where
  ty : ResourceType
  id : Nat
  payload : List Nat
deriving DecidableEq

def buildCoff (t : TargetType) (adds : List AddCall) : Coff2State :=
  adds.foldl (fun c a => addResource c a.ty a.id a.payload) (coffNew t)

/-- The entry loop of coff2 FileWriter::write_table: for each (key, value),
jump to the frontier, run the entry writer, then back-write the 8-byte
directory entry (id, offset with the high bit for a subdirectory) into its
reserved slot. -/
def writeTableAux {α σ : Type} (we : FileWriter → σ → α → FileWriter × σ × Bool)
    (tableBase : Nat) : Nat → Nat → List (Nat × α) → FileWriter → σ → FileWriter × σ
  | _, frontier, [], fw, s => (fwSetPos fw frontier, s)
  | i, frontier, p :: rest, fw, s =>
    let fw1 := fwSetPos fw frontier
    let off := fwCurrentOffset fw1
    let r := we fw1 s p.2
    let frontier2 := r.1.currentPosition
    let fw3 := fwSetPos r.1 (tableBase + i * 8)
    let fw4 := fwWriteU32 fw3 p.1
    let fw5 := fwWriteU32 fw4 (off % 4294967296 ||| (if r.2.2 then 2147483648 else 0))
    writeTableAux we tableBase (i + 1) frontier2 rest fw5 r.2.1

/-- coff2 FileWriter::write_table: the 16-byte directory node header (with
NumberOfIdEntries = map length), the reserved entry slots, then the entry
loop. -/
def writeTable {α σ : Type} (we : FileWriter → σ → α → FileWriter × σ × Bool)
    (tbl : List (Nat × α)) (fw : FileWriter) (s : σ) : FileWriter × σ :=
  let fw := fwWriteU32 fw 0
  let fw := fwWriteU32 fw 0
  let fw := fwWriteU16 fw 0
  let fw := fwWriteU16 fw 0
  let fw := fwWriteU16 fw 0
  let fw := fwWriteU16 fw tbl.length
  let tableBase := fw.currentPosition
  writeTableAux we tableBase 0 (tableBase + tbl.length * 8) tbl fw s

abbrev RelocList := List (Nat × Nat)

/-- The language-level leaf of coff2 write_table_section: record the
relocation (current section offset, symbol id), then emit the 16-byte data
entry: data RVA 0, size, code page 0, then the size again in the slot the
source comments as Reserved. -/
def writeDataEntry (fw : FileWriter) (relocs : RelocList) (loc : ResourceLocation) :
    FileWriter × RelocList × Bool :=
  let relocs := relocs ++ [(fwCurrentOffset fw, loc.symbolId)]
  let fw := fwWriteU32 fw 0
  let fw := fwWriteU32 fw loc.size
  let fw := fwWriteU32 fw 0
  let fw := fwWriteU32 fw loc.size
  (fw, relocs, false)

def writeLangTable (fw : FileWriter) (s : RelocList)
    (inner : List (Nat × ResourceLocation)) : FileWriter × RelocList × Bool :=
  let r := writeTable writeDataEntry inner fw s
  (r.1, r.2, true)

def writeIdTable (fw : FileWriter) (s : RelocList)
    (mid : List (Nat × List (Nat × ResourceLocation))) : FileWriter × RelocList × Bool :=
  let r := writeTable writeLangTable mid fw s
  (r.1, r.2, true)

structure CoffSection where
  name : List Nat
  pointerToRawData : Nat
  sizeOfRawData : Nat
  pointerToRelocations : Nat
  numberOfRelocations : Nat
deriving DecidableEq

def relocLe (a b : Nat × Nat) : Prop := a.2 ≤ b.2

instance : DecidableRel relocLe := fun a b => Nat.decLe a.2 b.2

instance : IsTotal (Nat × Nat) relocLe := ⟨fun a b => Nat.le_total a.2 b.2⟩

instance : IsTrans (Nat × Nat) relocLe := ⟨fun _ _ _ h1 h2 => Nat.le_trans h1 h2⟩

def rsrc01Name : List Nat := [46, 114, 115, 114, 99, 36, 48, 49]

def rsrc02Name : List Nat := [46, 114, 115, 114, 99, 36, 48, 50]

/-- coff2 write_table_section: mark the section start, write the three
nested directory levels collecting (virtual_address, symbol_index) pairs at
each data entry, align to 4, then write the relocation records sorted by
symbol index (a stable sort, as Rust sort_by_key), align again.  The sorted
relocation list is also returned (the source keeps it in a local Vec). -/
def writeTableSection (t : TargetType) (tbl : CoffTable) (fw : FileWriter) :
    FileWriter × RelocList × CoffSection :=
  let fw := fwMarkSectionStart fw
  let prd := fw.currentPosition
  let r := writeTable writeIdTable tbl fw ([] : RelocList)
  let fw := fwAlignTo r.1 4
  let sizeRaw := fw.currentPosition - prd
  let ptrRel := fw.currentPosition
  let nRel := r.2.length
  let sorted := List.insertionSort relocLe r.2
  let fw := sorted.foldl (fun fw g =>
    let fw := fwWriteU32 fw g.1
    let fw := fwWriteU32 fw g.2
    fwWriteU16 fw (relocationTypeId t)) fw
  let fw := fwAlignTo fw 4
  (fw, sorted, ⟨rsrc01Name, prd, sizeRaw, ptrRel, nRel⟩)

/-- coff2 write_data_section. -/
def writeDataSection (dataBytes : List Nat) (fw : FileWriter) :
    FileWriter × CoffSection :=
  let fw := fwMarkSectionStart fw
  let prd := fw.currentPosition
  let fw := fwWriteBytes fw dataBytes
  let fw := fwAlignTo fw 4
  (fw, ⟨rsrc02Name, prd, fw.currentPosition - prd, 0, 0⟩)

structure SectionsOut where
  state : Coff2State
  fw : FileWriter
  relocs : RelocList
  tableSec : CoffSection
  dataSec : CoffSection
deriving DecidableEq

/-- coff2 write_sections: table section, data section, and the replacement
of the four placeholder symbols by the section and auxiliary symbols. -/
def writeSections (c : Coff2State) (fw : FileWriter) : SectionsOut :=
  let r := writeTableSection c.targetType c.table fw
  let d := writeDataSection c.data.data r.1
  let symbols := ((((c.symbols.set 0 (.sectionSym rsrc01Name 1)).set 1
    (.sectionAux r.2.2.sizeOfRawData r.2.2.numberOfRelocations)).set 2
    (.sectionSym rsrc02Name 2)).set 3
    (.sectionAux d.2.sizeOfRawData 0))
  ⟨⟨c.targetType, c.table, c.data, symbols⟩, d.1, r.2.1, r.2.2, d.2⟩

/-- One 18-byte symbol record of coff2 write_symbol_table; a remaining
placeholder is a panic (none). -/
def writeSymbolEntry (fw : FileWriter) (s : CoffSymbol) : Option FileWriter :=
  match s with
  | .placeholder => none
  | .sectionSym name secnum =>
    let fw := fwWriteBytes fw name
    let fw := fwWriteU32 fw 0
    let fw := fwWriteU16 fw secnum
    let fw := fwWriteU16 fw 0
    let fw := fwWriteU8 fw 3
    some (fwWriteU8 fw 1)
  | .sectionAux len nrel =>
    let fw := fwWriteU32 fw len
    let fw := fwWriteU16 fw nrel
    let fw := fwWriteU16 fw 0
    some (fwReserve fw 10)
  | .resource name offset secnum =>
    let fw := fwWriteBytes fw name
    let fw := fwWriteU32 fw offset
    let fw := fwWriteU16 fw secnum
    let fw := fwWriteU16 fw 0
    let fw := fwWriteU8 fw 3
    some (fwWriteU8 fw 0)

/-- coff2 write_symbol_table: align, remember the table pointer, write all
symbols, and return (pointer, number_of_symbols = symbols.len()); the pair
is what finish records in the file header. -/
def writeSymbolTable (symbols : List CoffSymbol) (fw : FileWriter) :
    Option (FileWriter × Nat × Nat) :=
  let fw := fwAlignTo fw 4
  let ptr := fw.currentPosition
  (symbols.foldlM writeSymbolEntry fw).map (fun fw => (fw, ptr, symbols.length))

/-- One 40-byte section header of coff2 finish. -/
def writeSectionHeader (fw : FileWriter) (s : CoffSection) : FileWriter :=
  let fw := fwWriteBytes fw s.name
  let fw := fwWriteU32 fw 0
  let fw := fwWriteU32 fw 0
  let fw := fwWriteU32 fw s.sizeOfRawData
  let fw := fwWriteU32 fw s.pointerToRawData
  let fw := fwWriteU32 fw s.pointerToRelocations
  let fw := fwWriteU32 fw 0
  let fw := fwWriteU16 fw s.numberOfRelocations
  let fw := fwWriteU16 fw 0
  fwWriteU32 fw (0x00000040 ||| 0x40000000 ||| 0x80000000)

/-- coff2 CoffWriter2::finish with the wall-clock timestamp passed in (the
only environmental read; 0 on clock failure). -/
def coffFinish (c : Coff2State) (timestamp : Nat) : Option (List Nat) := do
  let fw := fwSetPos fwNew (20 + 40 * 2)
  let r := writeSections c fw
  let st ← writeSymbolTable r.state.symbols r.fw
  let fw := fwWriteBytes st.1 [0, 0, 0, 0]
  let fw := fwSetPos fw 0
  let fw := fwWriteU16 fw r.state.targetType.id
  let fw := fwWriteU16 fw 2
  let fw := fwWriteU32 fw timestamp
  let fw := fwWriteU32 fw st.2.1
  let fw := fwWriteU32 fw st.2.2
  let fw := fwWriteU16 fw 0
  let fw := fwWriteU16 fw 0x0100
  let fw := writeSectionHeader fw r.tableSec
  let fw := writeSectionHeader fw r.dataSec
  pure fw.data

/-- All symbol ids stored in a language-level node. -/
def innerSyms (inner : List (Nat × ResourceLocation)) : List Nat :=
  (inner.map (fun p => [p.2.symbolId])).flatten

/-- All symbol ids stored under an id-level node. -/
def midSyms (mid : List (Nat × List (Nat × ResourceLocation))) : List Nat :=
  (mid.map (fun p => innerSyms p.2)).flatten

/-- All symbol ids stored in the table. -/
def tableSyms (tbl : CoffTable) : List Nat :=
  (tbl.map (fun p => midSyms p.2)).flatten

/-! # Theorems -/

theorem drop_len_append (b L : List Nat) (n : Nat) :
    (b ++ L).drop (b.length + n) = L.drop n := by
  rw [← List.drop_drop, List.drop_left]

theorem wUpdate_some_length {b out : WBuf} {loc : Nat} {bs : List Nat}
    (h : wUpdate b loc bs = some out) : out.length = b.length := by
  unfold wUpdate at h
  split at h
  · cases h
    simp only [List.length_append, List.length_take, List.length_drop]
    omega
  · cases h

theorem writeFixedFileInfo_layout (f : FixedVersionInfo) (b : WBuf) :
    writeFixedFileInfo f b = b ++
      (le32 0xFEEF04BD ++ le32 65536 ++
       le16 f.fileVersion.minor ++ le16 f.fileVersion.major ++
       le16 f.fileVersion.build ++ le16 f.fileVersion.patch ++
       le16 f.productVersion.minor ++ le16 f.productVersion.major ++
       le16 f.productVersion.build ++ le16 f.productVersion.patch ++
       le32 0x3f ++ le32 f.fileFlags ++ le32 0x00040004 ++ le32 1 ++
       le32 0 ++ le32 0 ++ le32 0) := by
  simp [writeFixedFileInfo, wU32, wU16, VersionQuad.arr, List.append_assoc]

/-- C6: for every version number, the file-version and product-version
fields of the emitted VS_FIXEDFILEINFO occupy 8 bytes each, laid out as the
four little-endian u16 values minor, major, build, patch. -/
theorem fixedInfo_version_pair_swap (fv pv : VersionQuad) (flags : Nat) (b : WBuf) :
    ((writeFixedFileInfo ⟨fv, pv, flags⟩ b).drop (b.length + 8)).take 8 =
      le16 fv.minor ++ le16 fv.major ++ le16 fv.build ++ le16 fv.patch ∧
    ((writeFixedFileInfo ⟨fv, pv, flags⟩ b).drop (b.length + 16)).take 8 =
      le16 pv.minor ++ le16 pv.major ++ le16 pv.build ++ le16 pv.patch ∧
    (∀ v : Nat, (le16 v).length = 2) := by
  refine ⟨?_, ?_, fun v => rfl⟩ <;>
    rw [writeFixedFileInfo_layout, drop_len_append] <;>
    simp [le32, le16]

/-- C5: the filetype u32 of the emitted VS_FIXEDFILEINFO is always
0x00000001 (VFT_APP) regardless of the input, the filesubtype is 0, and
both trailing timestamp u32 fields are 0; in particular a Dll input does
not produce filetype 2. -/
theorem fixedInfo_filetype_constant (f : FixedVersionInfo) (b : WBuf) :
    ((writeFixedFileInfo f b).drop (b.length + 36)).take 4 = le32 1 ∧
    ((writeFixedFileInfo f b).drop (b.length + 40)).take 4 = le32 0 ∧
    ((writeFixedFileInfo f b).drop (b.length + 44)).take 4 = le32 0 ∧
    ((writeFixedFileInfo f b).drop (b.length + 48)).take 4 = le32 0 ∧
    le32 1 ≠ le32 2 := by
  refine ⟨?_, ?_, ?_, ?_, by decide⟩ <;>
    rw [writeFixedFileInfo_layout, drop_len_append] <;>
    simp [le32, le16]

/-- C2: at a position that is already a multiple of the alignment the
claimed padding formula (k - pos mod k) mod k yields 0 and binary.rs
reserves 0 bytes, but the coff.rs align_to reserves a full extra k zero
bytes. -/
theorem alignTo_already_aligned_divergence :
    coffAlignTo (List.replicate 8 0) 8 = List.replicate 16 0 ∧
    binAlignTo (List.replicate 8 0) 8 = List.replicate 8 0 ∧
    (8 - (List.replicate 8 (0 : Nat)).length % 8) % 8 = 0 := by decide

/-- C3 counterexample: the coff2 FileWriter write_bytes_at with a region
entirely past the current pos (0) succeeds and grows the buffer instead of
failing. -/
theorem fileWriter_writeBytesAt_grows :
    fwWriteBytesAt fwNew 5 [1] = ⟨[0, 0, 0, 0, 0, 1], 0, 0⟩ ∧
    fwNew.currentPosition = 0 ∧
    (fwWriteBytesAt fwNew 5 [1]).data.length = 6 := by decide

/-- C3 amended: write_bytes_at never moves pos in either implementation;
the res.rs ResourceFile implementation fails exactly when the region
extends past the buffer end (its pos), while the coff2 FileWriter never
fails and instead grows its buffer to cover the region. -/
theorem writeBytesAt_amended :
    (∀ (fw : FileWriter) (index : Nat) (bs : List Nat),
      (fwWriteBytesAt fw index bs).currentPosition = fw.currentPosition ∧
      (fwWriteBytesAt fw index bs).sectionStart = fw.sectionStart ∧
      (fwWriteBytesAt fw index bs).data.length = max fw.data.length (index + bs.length)) ∧
    (∀ (b : WBuf) (index : Nat) (bs : List Nat),
      ((rfWriteBytesAt b index bs).isSome ↔ index + bs.length ≤ b.length) ∧
      ((rfWriteBytesAt b index bs).getD b).length = b.length) := by
  constructor
  · intro fw index bs
    refine ⟨rfl, rfl, ?_⟩
    unfold fwWriteBytesAt
    split <;>
      (simp only [List.length_append, List.length_take, List.length_drop,
        List.length_replicate]) <;> omega
  · intro b index bs
    unfold rfWriteBytesAt wUpdate
    split <;> rename_i h
    · refine ⟨by simp [h], ?_⟩
      simp only [Option.getD_some]
      simp only [List.length_append, List.length_take, List.length_drop]
      omega
    · exact ⟨by simp [h], by simp⟩

/-- C4: the 16-byte data entry emitted by the coff2 table section writes
data RVA 0, the payload size, code page 0, and then the payload size again
into the Reserved slot, which is nonzero for a 5-byte payload. -/
theorem dataEntry_reserved_bug :
    (writeDataEntry fwNew [] ⟨0, 5, 4⟩).1.data = le32 0 ++ le32 5 ++ le32 0 ++ le32 5 ∧
    (writeDataEntry fwNew [] ⟨0, 5, 4⟩).2.1 = [(0, 4)] ∧
    (writeDataEntry fwNew [] ⟨0, 5, 4⟩).1.data.drop 12 = le32 5 ∧
    le32 5 ≠ le32 0 := by decide

theorem foldl_append_map {α β : Type} (f : α → β) (l : List α) (init : List β) :
    l.foldl (fun res p => res ++ [f p]) init = init ++ l.map f := by
  induction l generalizing init with
  | nil => simp
  | cons h t ih => simp [ih]

/-- C7: compile_to_res emits the None sentinel with the empty payload
first, then the Version record, then every icon in registration order,
then every icon group, then the Manifest record exactly when a manifest
was set. -/
theorem compileToRes_order (b : ResourceBuilder) :
    compileToRes b =
      ⟨ResourceType.rnone, 0, ResPayload.unitPayload⟩ ::
      ⟨ResourceType.version, 1, ResPayload.versionPayload b.version⟩ ::
      (b.icons.map (fun p => ⟨ResourceType.icon, p.1, ResPayload.iconPayload p.2.bytes⟩) ++
       b.iconGroups.map (fun p => ⟨ResourceType.iconGroup, p.1, ResPayload.iconGroupPayload p.2⟩) ++
       (match b.manifest with
        | some m => [⟨ResourceType.manifest, 1, ResPayload.manifestPayload m⟩]
        | none => [])) ∧
    ((∃ r ∈ compileToRes b, r.ty = ResourceType.manifest) ↔ b.manifest.isSome) ∧
    (∀ w : WBuf, unitWriteTo w = w) := by
  have horder : compileToRes b =
      ⟨ResourceType.rnone, 0, ResPayload.unitPayload⟩ ::
      ⟨ResourceType.version, 1, ResPayload.versionPayload b.version⟩ ::
      (b.icons.map (fun p => ⟨ResourceType.icon, p.1, ResPayload.iconPayload p.2.bytes⟩) ++
       b.iconGroups.map (fun p => ⟨ResourceType.iconGroup, p.1, ResPayload.iconGroupPayload p.2⟩) ++
       (match b.manifest with
        | some m => [⟨ResourceType.manifest, 1, ResPayload.manifestPayload m⟩]
        | none => [])) := by
    simp only [compileToRes, resAppendRecord, foldl_append_map]
    cases b.manifest <;> simp
  refine ⟨horder, ?_, fun w => rfl⟩
  rw [horder]
  cases hm : b.manifest with
  | none =>
    simp only [Option.isSome_none, Bool.false_eq_true, iff_false]
    rintro ⟨r, hr, hty⟩
    simp only [List.mem_cons, List.mem_append, List.mem_map, List.not_mem_nil,
      or_false] at hr
    rcases hr with h | h | ⟨p, hp, he⟩ | ⟨p, hp, he⟩
    · subst h; cases hty
    · subst h; cases hty
    · rw [← he] at hty; cases hty
    · rw [← he] at hty; cases hty
  | some m =>
    simp only [Option.isSome_some, iff_true]
    refine ⟨⟨ResourceType.manifest, 1, ResPayload.manifestPayload m⟩, ?_, rfl⟩
    simp

theorem sliceRun_some_spec :
    ∀ (writes : List (List Nat)) (p : WBuf) (s : BinarySlice) (out : WBuf × BinarySlice),
      sliceRun p s writes = some out →
      out.2.start = s.start ∧ out.2.length = s.length ∧
      out.2.pos = s.pos + (writes.map List.length).sum ∧
      out.1.length = p.length := by
  intro writes
  induction writes with
  | nil =>
    intro p s out h
    cases h
    exact ⟨rfl, rfl, by simp, rfl⟩
  | cons bs rest ih =>
    intro p s out h
    simp only [sliceRun] at h
    cases hsw : sliceWriteBytes p s bs with
    | none => rw [hsw] at h; cases h
    | some q =>
      rw [hsw] at h
      simp only [Option.some_bind] at h
      unfold sliceWriteBytes at hsw
      split at hsw
      · cases hrf : rfWriteBytesAt p (s.start + s.pos) bs with
        | none => rw [hrf] at hsw; cases hsw
        | some p2 =>
          rw [hrf] at hsw
          simp only [Option.map_some'] at hsw
          cases hsw
          have hrec := ih p2 ⟨s.start, s.length, s.pos + bs.length⟩ out h
          have hlen := wUpdate_some_length hrf
          refine ⟨hrec.1, hrec.2.1, ?_, ?_⟩
          · rw [hrec.2.2.1]
            simp only [List.map_cons, List.sum_cons]
            omega
          · rw [hrec.2.2.2, hlen]
      · cases hsw

theorem sliceRun_overflow :
    ∀ (writes : List (List Nat)) (p : WBuf) (s : BinarySlice),
      s.pos ≤ s.length → s.length < s.pos + (writes.map List.length).sum →
      sliceRun p s writes = none := by
  intro writes
  induction writes with
  | nil =>
    intro p s hle hover
    simp only [List.map_nil, List.sum_nil] at hover
    omega
  | cons bs rest ih =>
    intro p s hle hover
    simp only [List.map_cons, List.sum_cons] at hover
    simp only [sliceRun]
    unfold sliceWriteBytes
    by_cases h1 : s.pos + bs.length ≤ s.length
    · rw [if_pos h1]
      cases hrf : rfWriteBytesAt p (s.start + s.pos) bs with
      | none => simp
      | some p2 =>
        simp only [Option.map_some', Option.some_bind]
        exact ih p2 ⟨s.start, s.length, s.pos + bs.length⟩ h1
          (by show s.length < s.pos + bs.length + (rest.map List.length).sum; omega)
    · rw [if_neg h1]
      simp

/-- C9: a scoped slice keeps a window-relative pos equal to the total
number of bytes written so far, never changes the parent length, succeeds
only while the writes stay inside the window (writing past the window
length is fatal), and its scope-exit assertion holds exactly when the
total written equals the window length. -/
theorem binarySlice_window_contract :
    (∀ (parent : WBuf) (start L : Nat) (writes : List (List Nat)) (out : WBuf × BinarySlice),
      sliceRun parent (mkSlice start L) writes = some out →
      out.2.pos = (writes.map List.length).sum ∧
      out.1.length = parent.length ∧
      (sliceDropOk out.2 ↔ (writes.map List.length).sum = L)) ∧
    (∀ (parent : WBuf) (start L : Nat) (writes : List (List Nat)),
      L < (writes.map List.length).sum →
      sliceRun parent (mkSlice start L) writes = none) := by
  constructor
  · intro parent start L writes out h
    have hs := sliceRun_some_spec writes parent (mkSlice start L) out h
    refine ⟨by rw [hs.2.2.1]; simp [mkSlice], hs.2.2.2, ?_⟩
    unfold sliceDropOk
    rw [hs.2.2.1, hs.2.1]
    simp [mkSlice]
  · intro parent start L writes h
    exact sliceRun_overflow writes parent (mkSlice start L) (by simp [mkSlice]) (by simp [mkSlice]; omega)

theorem binarySlice_window_contract_witness :
    ((⟨0, 2, 2⟩ : BinarySlice).pos = (([[5], [6]] : List (List Nat)).map List.length).sum ∧
     sliceDropOk (⟨0, 2, 2⟩ : BinarySlice)) ∧
    sliceRun [0, 0, 0] (mkSlice 0 1) [[5], [6]] = none := by
  constructor
  · have h := binarySlice_window_contract.1 [0, 0, 0] 0 2 [[5], [6]]
      ([5, 6, 0], ⟨0, 2, 2⟩) (by decide)
    exact ⟨h.1, h.2.2.mpr (by decide)⟩
  · exact binarySlice_window_contract.2 [0, 0, 0] 0 1 [[5], [6]] (by decide)

set_option maxHeartbeats 1000000 in
/-- C1: the emitted version record of a builder whose strings map is empty
still contains a StringTable entry whose value is the UTF-16 text
rusty-twinkle-tray; the write_version string table is the hard-coded
versionStringFields list and never reads the strings map. -/
theorem versionStrings_hardcoded_bug :
    (writeVersion fixedZero []).isSome ∧
    strUtf16Bytes sRustyTwinkleTray <:+: ((writeVersion fixedZero []).getD []) ∧
    sRustyTwinkleTray ∉ (([] : List (String × String)).map Prod.snd) := by decide

theorem fwWriteU32_ss (fw : FileWriter) (v : Nat) :
    (fwWriteU32 fw v).sectionStart = fw.sectionStart := rfl

theorem fwWriteU32_pos (fw : FileWriter) (v : Nat) :
    (fwWriteU32 fw v).currentPosition = fw.currentPosition + 4 := rfl

theorem fwWriteU16_ss (fw : FileWriter) (v : Nat) :
    (fwWriteU16 fw v).sectionStart = fw.sectionStart := rfl

theorem fwWriteU16_pos (fw : FileWriter) (v : Nat) :
    (fwWriteU16 fw v).currentPosition = fw.currentPosition + 2 := rfl

theorem fwSetPos_ss (fw : FileWriter) (p : Nat) :
    (fwSetPos fw p).sectionStart = fw.sectionStart := rfl

theorem fwSetPos_pos (fw : FileWriter) (p : Nat) :
    (fwSetPos fw p).currentPosition = p := rfl

theorem writeTableAux_spec {α : Type}
    (we : FileWriter → RelocList → α → FileWriter × RelocList × Bool)
    (symsOf : α → List Nat)
    (hwe : ∀ fw s v,
      (we fw s v).1.sectionStart = fw.sectionStart ∧
      fw.currentPosition ≤ (we fw s v).1.currentPosition ∧
      ∃ d, (we fw s v).2.1 = s ++ d ∧
        (fw.sectionStart ≤ fw.currentPosition →
          ∀ g ∈ d, g.1 + 16 ≤ (we fw s v).1.currentPosition - fw.sectionStart ∧
            g.2 ∈ symsOf v)) :
    ∀ (tbl : List (Nat × α)) (tableBase i frontier : Nat) (fw : FileWriter) (s : RelocList),
      (writeTableAux we tableBase i frontier tbl fw s).1.sectionStart = fw.sectionStart ∧
      frontier ≤ (writeTableAux we tableBase i frontier tbl fw s).1.currentPosition ∧
      ∃ d, (writeTableAux we tableBase i frontier tbl fw s).2 = s ++ d ∧
        (fw.sectionStart ≤ frontier →
          ∀ g ∈ d,
            g.1 + 16 ≤ (writeTableAux we tableBase i frontier tbl fw s).1.currentPosition -
              fw.sectionStart ∧
            g.2 ∈ (tbl.map (fun p => symsOf p.2)).flatten) := by
  intro tbl
  induction tbl with
  | nil =>
    intro tableBase i frontier fw s
    refine ⟨rfl, Nat.le_refl _, [], by simp [writeTableAux], ?_⟩
    intro _ g hg
    cases hg
  | cons hd rest ih =>
    intro tableBase i frontier fw s
    simp only [writeTableAux]
    obtain ⟨h1ss, h1pos, d1, hs1, hb1⟩ := hwe (fwSetPos fw frontier) s hd.2
    obtain ⟨h2ss, h2pos, d2, hs2, hb2⟩ := ih tableBase (i + 1)
      (we (fwSetPos fw frontier) s hd.2).1.currentPosition
      (fwWriteU32
        (fwWriteU32 (fwSetPos (we (fwSetPos fw frontier) s hd.2).1 (tableBase + i * 8)) hd.1)
        (fwCurrentOffset (fwSetPos fw frontier) % 4294967296 |||
          if (we (fwSetPos fw frontier) s hd.2).2.2 then 2147483648 else 0))
      (we (fwSetPos fw frontier) s hd.2).2.1
    rw [fwSetPos_ss] at h1ss
    rw [fwSetPos_pos] at h1pos
    have hfw5ss :
        (fwWriteU32
          (fwWriteU32 (fwSetPos (we (fwSetPos fw frontier) s hd.2).1 (tableBase + i * 8)) hd.1)
          (fwCurrentOffset (fwSetPos fw frontier) % 4294967296 |||
            if (we (fwSetPos fw frontier) s hd.2).2.2 then 2147483648 else 0)).sectionStart =
          fw.sectionStart := by
      rw [fwWriteU32_ss, fwWriteU32_ss, fwSetPos_ss, h1ss]
    constructor
    · rw [h2ss, hfw5ss]
    constructor
    · exact Nat.le_trans h1pos h2pos
    · refine ⟨d1 ++ d2, ?_, ?_⟩
      · rw [hs2, hs1, List.append_assoc]
      · intro hssf g hg
        rw [hfw5ss] at hb2
        have hssp : fw.sectionStart ≤ (we (fwSetPos fw frontier) s hd.2).1.currentPosition :=
          Nat.le_trans hssf h1pos
        rcases List.mem_append.mp hg with hg1 | hg2
        · have hb := hb1 (by rw [fwSetPos_ss, fwSetPos_pos]; exact hssf) g hg1
          rw [fwSetPos_ss] at hb
          refine ⟨?_, ?_⟩
          · calc g.1 + 16 ≤ (we (fwSetPos fw frontier) s hd.2).1.currentPosition -
                  fw.sectionStart := hb.1
              _ ≤ (writeTableAux we tableBase (i + 1)
                    (we (fwSetPos fw frontier) s hd.2).1.currentPosition rest
                    (fwWriteU32
                      (fwWriteU32 (fwSetPos (we (fwSetPos fw frontier) s hd.2).1
                        (tableBase + i * 8)) hd.1)
                      (fwCurrentOffset (fwSetPos fw frontier) % 4294967296 |||
                        if (we (fwSetPos fw frontier) s hd.2).2.2 then 2147483648 else 0))
                    (we (fwSetPos fw frontier) s hd.2).2.1).1.currentPosition -
                  fw.sectionStart := Nat.sub_le_sub_right h2pos _
          · simp only [List.map_cons, List.flatten_cons, List.mem_append]
            exact Or.inl hb.2
        · have hb := hb2 hssp g hg2
          refine ⟨hb.1, ?_⟩
          simp only [List.map_cons, List.flatten_cons, List.mem_append]
          exact Or.inr hb.2

theorem writeTable_spec {α : Type}
    (we : FileWriter → RelocList → α → FileWriter × RelocList × Bool)
    (symsOf : α → List Nat)
    (hwe : ∀ fw s v,
      (we fw s v).1.sectionStart = fw.sectionStart ∧
      fw.currentPosition ≤ (we fw s v).1.currentPosition ∧
      ∃ d, (we fw s v).2.1 = s ++ d ∧
        (fw.sectionStart ≤ fw.currentPosition →
          ∀ g ∈ d, g.1 + 16 ≤ (we fw s v).1.currentPosition - fw.sectionStart ∧
            g.2 ∈ symsOf v)) :
    ∀ (tbl : List (Nat × α)) (fw : FileWriter) (s : RelocList),
      (writeTable we tbl fw s).1.sectionStart = fw.sectionStart ∧
      fw.currentPosition ≤ (writeTable we tbl fw s).1.currentPosition ∧
      ∃ d, (writeTable we tbl fw s).2 = s ++ d ∧
        (fw.sectionStart ≤ fw.currentPosition →
          ∀ g ∈ d,
            g.1 + 16 ≤ (writeTable we tbl fw s).1.currentPosition - fw.sectionStart ∧
            g.2 ∈ (tbl.map (fun p => symsOf p.2)).flatten) := by
  intro tbl fw s
  simp only [writeTable]
  obtain ⟨hss, hpos, d, hd, hb⟩ := writeTableAux_spec we symsOf hwe tbl
    (fwWriteU16 (fwWriteU16 (fwWriteU16 (fwWriteU16 (fwWriteU32 (fwWriteU32 fw 0) 0) 0) 0) 0)
      tbl.length).currentPosition 0
    ((fwWriteU16 (fwWriteU16 (fwWriteU16 (fwWriteU16 (fwWriteU32 (fwWriteU32 fw 0) 0) 0) 0) 0)
      tbl.length).currentPosition + tbl.length * 8)
    (fwWriteU16 (fwWriteU16 (fwWriteU16 (fwWriteU16 (fwWriteU32 (fwWriteU32 fw 0) 0) 0) 0) 0)
      tbl.length) s
  have hHss :
      (fwWriteU16 (fwWriteU16 (fwWriteU16 (fwWriteU16 (fwWriteU32 (fwWriteU32 fw 0) 0) 0) 0) 0)
        tbl.length).sectionStart = fw.sectionStart := by
    simp only [fwWriteU16_ss, fwWriteU32_ss]
  have hHpos :
      (fwWriteU16 (fwWriteU16 (fwWriteU16 (fwWriteU16 (fwWriteU32 (fwWriteU32 fw 0) 0) 0) 0) 0)
        tbl.length).currentPosition = fw.currentPosition + 16 := by
    simp only [fwWriteU16_pos, fwWriteU32_pos]
  refine ⟨hss.trans hHss, ?_, d, hd, ?_⟩
  · refine Nat.le_trans ?_ hpos
    rw [hHpos]
    omega
  · intro h
    intro g hg
    obtain ⟨b1, b2⟩ := hb (by rw [hHss, hHpos]; omega) g hg
    rw [hHss] at b1
    exact ⟨b1, b2⟩

theorem hwe_dataEntry :
    ∀ (fw : FileWriter) (s : RelocList) (v : ResourceLocation),
      (writeDataEntry fw s v).1.sectionStart = fw.sectionStart ∧
      fw.currentPosition ≤ (writeDataEntry fw s v).1.currentPosition ∧
      ∃ d, (writeDataEntry fw s v).2.1 = s ++ d ∧
        (fw.sectionStart ≤ fw.currentPosition →
          ∀ g ∈ d, g.1 + 16 ≤ (writeDataEntry fw s v).1.currentPosition - fw.sectionStart ∧
            g.2 ∈ [v.symbolId]) := by
  intro fw s v
  have hpos : (writeDataEntry fw s v).1.currentPosition = fw.currentPosition + 16 := by
    simp only [writeDataEntry, fwWriteU32_pos]
  have hss : (writeDataEntry fw s v).1.sectionStart = fw.sectionStart := by
    simp only [writeDataEntry, fwWriteU32_ss]
  refine ⟨hss, by rw [hpos]; omega, [(fwCurrentOffset fw, v.symbolId)], rfl, ?_⟩
  intro hss g hg
  rcases List.mem_singleton.mp hg with rfl
  rw [hpos]
  unfold fwCurrentOffset
  exact ⟨by omega, List.mem_singleton.mpr rfl⟩

theorem hwe_lang :
    ∀ (fw : FileWriter) (s : RelocList) (v : List (Nat × ResourceLocation)),
      (writeLangTable fw s v).1.sectionStart = fw.sectionStart ∧
      fw.currentPosition ≤ (writeLangTable fw s v).1.currentPosition ∧
      ∃ d, (writeLangTable fw s v).2.1 = s ++ d ∧
        (fw.sectionStart ≤ fw.currentPosition →
          ∀ g ∈ d, g.1 + 16 ≤ (writeLangTable fw s v).1.currentPosition - fw.sectionStart ∧
            g.2 ∈ innerSyms v) := by
  intro fw s v
  exact writeTable_spec writeDataEntry (fun loc => [loc.symbolId]) hwe_dataEntry v fw s

theorem hwe_id :
    ∀ (fw : FileWriter) (s : RelocList) (v : List (Nat × List (Nat × ResourceLocation))),
      (writeIdTable fw s v).1.sectionStart = fw.sectionStart ∧
      fw.currentPosition ≤ (writeIdTable fw s v).1.currentPosition ∧
      ∃ d, (writeIdTable fw s v).2.1 = s ++ d ∧
        (fw.sectionStart ≤ fw.currentPosition →
          ∀ g ∈ d, g.1 + 16 ≤ (writeIdTable fw s v).1.currentPosition - fw.sectionStart ∧
            g.2 ∈ midSyms v) := by
  intro fw s v
  exact writeTable_spec writeLangTable innerSyms hwe_lang v fw s

theorem writeTableSection_spec (t : TargetType) (tbl : CoffTable) (fw : FileWriter) :
    List.Sorted relocLe (writeTableSection t tbl fw).2.1 ∧
    ∀ g ∈ (writeTableSection t tbl fw).2.1,
      g.1 + 16 ≤ (writeTableSection t tbl fw).2.2.sizeOfRawData ∧
      g.2 ∈ tableSyms tbl := by
  obtain ⟨hss, hpos, d, hd, hb⟩ :=
    writeTable_spec writeIdTable midSyms hwe_id tbl (fwMarkSectionStart fw) []
  have hmss : (fwMarkSectionStart fw).sectionStart = fw.currentPosition := rfl
  have hmpos : (fwMarkSectionStart fw).currentPosition = fw.currentPosition := rfl
  have hrel : (writeTableSection t tbl fw).2.1 =
      List.insertionSort relocLe (writeTable writeIdTable tbl (fwMarkSectionStart fw) []).2 := rfl
  have hsize : (writeTableSection t tbl fw).2.2.sizeOfRawData =
      (fwAlignTo (writeTable writeIdTable tbl (fwMarkSectionStart fw) []).1 4).currentPosition -
        fw.currentPosition := rfl
  constructor
  · rw [hrel]
    exact List.sorted_insertionSort relocLe _
  · intro g hg
    rw [hrel] at hg
    have hmem : g ∈ (writeTable writeIdTable tbl (fwMarkSectionStart fw) []).2 :=
      (List.perm_insertionSort relocLe _).mem_iff.mp hg
    rw [hd] at hmem
    simp only [List.nil_append] at hmem
    have hb2 := hb (by rw [hmss, hmpos]) g hmem
    rw [hmss] at hb2
    have halign :
        (writeTable writeIdTable tbl (fwMarkSectionStart fw) []).1.currentPosition ≤
        (fwAlignTo (writeTable writeIdTable tbl (fwMarkSectionStart fw) []).1 4).currentPosition := by
      show _ ≤ (writeTable writeIdTable tbl (fwMarkSectionStart fw) []).1.currentPosition + _
      omega
    refine ⟨?_, hb2.2⟩
    rw [hsize]
    calc g.1 + 16 ≤ (writeTable writeIdTable tbl (fwMarkSectionStart fw) []).1.currentPosition -
        fw.currentPosition := hb2.1
      _ ≤ (fwAlignTo (writeTable writeIdTable tbl (fwMarkSectionStart fw) []).1 4).currentPosition -
        fw.currentPosition := Nat.sub_le_sub_right halign _

theorem lookupA_mem {β : Type} {k : Nat} {m : List (Nat × β)} {v : β}
    (h : lookupA k m = some v) : v ∈ m.map Prod.snd := by
  induction m with
  | nil => cases h
  | cons p t ih =>
    unfold lookupA at h
    split at h
    · cases h; exact List.mem_cons_self _ _
    · exact List.mem_cons_of_mem _ (ih h)

theorem flatten_map_insertSorted {β : Type} (f : β → List Nat) (k : Nat) (v : β)
    (m : List (Nat × β)) :
    ∀ x ∈ ((insertSorted k v m).map (fun p => f p.2)).flatten,
      x ∈ f v ∨ x ∈ (m.map (fun p => f p.2)).flatten := by
  induction m with
  | nil =>
    intro x hx
    simp only [insertSorted, List.map_cons, List.map_nil, List.flatten_cons,
      List.flatten_nil, List.append_nil] at hx
    exact Or.inl hx
  | cons p t ih =>
    intro x hx
    unfold insertSorted at hx
    split at hx
    · simp only [List.map_cons, List.flatten_cons, List.mem_append] at hx ⊢
      tauto
    · split at hx
      · simp only [List.map_cons, List.flatten_cons, List.mem_append] at hx ⊢
        tauto
      · simp only [List.map_cons, List.flatten_cons, List.mem_append] at hx ⊢
        rcases hx with hx | hx
        · tauto
        · rcases ih x hx with h | h <;> tauto

theorem syms_of_value_mem {β : Type} (f : β → List Nat) {m : List (Nat × β)} {v : β}
    (hv : v ∈ m.map Prod.snd) : ∀ x ∈ f v, x ∈ (m.map (fun p => f p.2)).flatten := by
  intro x hx
  rcases List.mem_map.mp hv with ⟨p, hp, hpv⟩
  exact List.mem_flatten.mpr ⟨f p.2, List.mem_map.mpr ⟨p, hp, rfl⟩, by rw [hpv]; exact hx⟩

theorem tableSyms_insert (k : Nat) (v : List (Nat × List (Nat × ResourceLocation)))
    (m : CoffTable) :
    ∀ x ∈ tableSyms (insertSorted k v m), x ∈ midSyms v ∨ x ∈ tableSyms m :=
  fun x hx => flatten_map_insertSorted midSyms k v m x hx

theorem midSyms_insert (k : Nat) (v : List (Nat × ResourceLocation))
    (m : List (Nat × List (Nat × ResourceLocation))) :
    ∀ x ∈ midSyms (insertSorted k v m), x ∈ innerSyms v ∨ x ∈ midSyms m :=
  fun x hx => flatten_map_insertSorted innerSyms k v m x hx

theorem innerSyms_insert (k : Nat) (v : ResourceLocation)
    (m : List (Nat × ResourceLocation)) :
    ∀ x ∈ innerSyms (insertSorted k v m), x ∈ [v.symbolId] ∨ x ∈ innerSyms m := by
  intro x hx
  have hx2 : x ∈ ((insertSorted k v m).map
      (fun p => (fun loc : ResourceLocation => [loc.symbolId]) p.2)).flatten := hx
  exact flatten_map_insertSorted (fun loc : ResourceLocation => [loc.symbolId]) k v m x hx2

theorem innerSyms_lookup_getD (id : Nat) (m : List (Nat × List (Nat × ResourceLocation))) :
    ∀ x ∈ innerSyms ((lookupA id m).getD []), x ∈ midSyms m := by
  cases h : lookupA id m with
  | none =>
    intro x hx
    simp only [Option.getD_none] at hx
    cases hx
  | some inner0 =>
    intro x hx
    simp only [Option.getD_some] at hx
    exact syms_of_value_mem innerSyms (lookupA_mem h) x hx

theorem midSyms_lookup_getD (k : Nat) (m : CoffTable) :
    ∀ x ∈ midSyms ((lookupA k m).getD []), x ∈ tableSyms m := by
  cases h : lookupA k m with
  | none =>
    intro x hx
    simp only [Option.getD_none] at hx
    cases hx
  | some mid0 =>
    intro x hx
    simp only [Option.getD_some] at hx
    exact syms_of_value_mem midSyms (lookupA_mem h) x hx

theorem tableSyms_addResource (c : Coff2State) (ty : ResourceType) (id : Nat)
    (payload : List Nat) :
    ∀ x ∈ tableSyms (addResource c ty id payload).table,
      x ∈ tableSyms c.table ∨ x = c.symbols.length := by
  intro x hx
  simp only [addResource, updateAssoc] at hx
  rcases tableSyms_insert _ _ _ x hx with hx2 | hx2
  · rcases midSyms_insert _ _ _ x hx2 with hx3 | hx3
    · rcases innerSyms_insert _ _ _ x hx3 with hx4 | hx4
      · right
        exact List.mem_singleton.mp hx4
      · left
        exact midSyms_lookup_getD _ _ x (innerSyms_lookup_getD _ _ x hx4)
    · left
      exact midSyms_lookup_getD _ _ x hx3
  · exact Or.inl hx2

theorem foldl_addResource_symbols_length (adds : List AddCall) :
    ∀ c : Coff2State,
      (adds.foldl (fun c a => addResource c a.ty a.id a.payload) c).symbols.length =
        c.symbols.length + adds.length := by
  induction adds with
  | nil => intro c; simp
  | cons a rest ih =>
    intro c
    simp only [List.foldl_cons, List.length_cons]
    rw [ih]
    have : (addResource c a.ty a.id a.payload).symbols.length = c.symbols.length + 1 := by
      simp [addResource]
    omega

theorem buildCoff_symbols_length (t : TargetType) (adds : List AddCall) :
    (buildCoff t adds).symbols.length = 4 + adds.length := by
  unfold buildCoff
  rw [foldl_addResource_symbols_length]
  rfl

theorem foldl_addResource_syms_bound (adds : List AddCall) :
    ∀ c : Coff2State,
      (∀ x ∈ tableSyms c.table, x < c.symbols.length) →
      ∀ x ∈ tableSyms (adds.foldl (fun c a => addResource c a.ty a.id a.payload) c).table,
        x < (adds.foldl (fun c a => addResource c a.ty a.id a.payload) c).symbols.length := by
  induction adds with
  | nil => intro c h; exact h
  | cons a rest ih =>
    intro c h
    simp only [List.foldl_cons]
    refine ih (addResource c a.ty a.id a.payload) ?_
    intro x hx
    have hlen : (addResource c a.ty a.id a.payload).symbols.length = c.symbols.length + 1 := by
      simp [addResource]
    rw [hlen]
    rcases tableSyms_addResource c a.ty a.id a.payload x hx with h1 | h1
    · exact Nat.lt_succ_of_lt (h x h1)
    · omega

theorem buildCoff_syms_bound (t : TargetType) (adds : List AddCall) :
    ∀ x ∈ tableSyms (buildCoff t adds).table, x < (buildCoff t adds).symbols.length := by
  unfold buildCoff
  refine foldl_addResource_syms_bound adds (coffNew t) ?_
  intro x hx
  cases hx

/-- C8: the relocation list emitted by the coff2 table section is sorted
ascending by symbol index, every relocation symbol index is below the
number of symbols the finished header records (symbols.len(), which is 4
plus the number of resources and is unchanged by write_sections), and every
relocation virtual address is the section-relative offset of a 16-byte data
entry lying inside the table section raw data. -/
theorem coff_relocation_invariants (t : TargetType) (adds : List AddCall) :
    List.Sorted relocLe
      (writeTableSection t (buildCoff t adds).table (fwSetPos fwNew 100)).2.1 ∧
    (buildCoff t adds).symbols.length = 4 + adds.length ∧
    (writeSections (buildCoff t adds) (fwSetPos fwNew 100)).state.symbols.length =
      4 + adds.length ∧
    ∀ g ∈ (writeTableSection t (buildCoff t adds).table (fwSetPos fwNew 100)).2.1,
      g.2 < (buildCoff t adds).symbols.length ∧
      g.1 + 16 ≤
        (writeTableSection t (buildCoff t adds).table (fwSetPos fwNew 100)).2.2.sizeOfRawData := by
  obtain ⟨hsorted, hmem⟩ :=
    writeTableSection_spec t (buildCoff t adds).table (fwSetPos fwNew 100)
  refine ⟨hsorted, buildCoff_symbols_length t adds, ?_, ?_⟩
  · simp only [writeSections, List.length_set]
    exact buildCoff_symbols_length t adds
  · intro g hg
    obtain ⟨hbound, hsym⟩ := hmem g hg
    exact ⟨buildCoff_syms_bound t adds g.2 hsym, hbound⟩

theorem coff_relocation_invariants_witness :
    (72, 4).2 < (buildCoff TargetType.x8664
      [⟨ResourceType.manifest, 1, [7, 7, 7, 7, 7]⟩]).symbols.length ∧
    (72, 4).1 + 16 ≤ (writeTableSection TargetType.x8664
      (buildCoff TargetType.x8664 [⟨ResourceType.manifest, 1, [7, 7, 7, 7, 7]⟩]).table
      (fwSetPos fwNew 100)).2.2.sizeOfRawData :=
  (coff_relocation_invariants TargetType.x8664
    [⟨ResourceType.manifest, 1, [7, 7, 7, 7, 7]⟩]).2.2.2 (72, 4) (by decide)

theorem fwWriteBytes_pos (fw : FileWriter) (bs : List Nat) :
    (fwWriteBytes fw bs).currentPosition = fw.currentPosition + bs.length := rfl

theorem insertSorted_keys_mem {β : Type} (k j : Nat) (v : β) (m : List (Nat × β)) :
    j ∈ (insertSorted k v m).map Prod.fst ↔ j = k ∨ j ∈ m.map Prod.fst := by
  induction m with
  | nil => simp [insertSorted]
  | cons p t ih =>
    obtain ⟨pk, pv⟩ := p
    unfold insertSorted
    split
    · simp only [List.map_cons, List.mem_cons]
    · split
      · rename_i hge heq
        subst heq
        simp only [List.map_cons, List.mem_cons]
        tauto
      · simp only [List.map_cons, List.mem_cons]
        rw [ih]
        tauto

theorem insertSorted_pairwise {β : Type} (k : Nat) (v : β) (m : List (Nat × β))
    (h : List.Pairwise (· < ·) (m.map Prod.fst)) :
    List.Pairwise (· < ·) ((insertSorted k v m).map Prod.fst) := by
  induction m with
  | nil => simp [insertSorted]
  | cons p t ih =>
    obtain ⟨pk, pv⟩ := p
    simp only [List.map_cons, List.pairwise_cons] at h
    obtain ⟨hall, ht⟩ := h
    unfold insertSorted
    split
    · rename_i hlt
      simp only [List.map_cons, List.pairwise_cons]
      refine ⟨?_, hall, ht⟩
      intro y hy
      rcases List.mem_cons.mp hy with rfl | hy2
      · exact hlt
      · exact Nat.lt_trans hlt (hall y hy2)
    · split
      · rename_i hge heq
        subst heq
        simp only [List.map_cons, List.pairwise_cons]
        exact ⟨hall, ht⟩
      · rename_i hge hne
        have hpk : pk < k := by omega
        simp only [List.map_cons, List.pairwise_cons]
        refine ⟨?_, ih ht⟩
        intro y hy
        rcases (insertSorted_keys_mem k y v t).mp hy with rfl | hy2
        · exact hpk
        · exact hall y hy2

theorem insertSorted_length {β : Type} (k : Nat) (v : β) (m : List (Nat × β))
    (h : List.Pairwise (· < ·) (m.map Prod.fst)) :
    (insertSorted k v m).length =
      if k ∈ m.map Prod.fst then m.length else m.length + 1 := by
  induction m with
  | nil => simp [insertSorted]
  | cons p t ih =>
    obtain ⟨pk, pv⟩ := p
    simp only [List.map_cons, List.pairwise_cons] at h
    obtain ⟨hall, ht⟩ := h
    unfold insertSorted
    split
    · rename_i hlt
      have hnot : ¬ (k ∈ ((pk, pv) :: t).map Prod.fst) := by
        simp only [List.map_cons, List.mem_cons]
        rintro (rfl | hk)
        · omega
        · exact absurd (hall k hk) (by omega)
      rw [if_neg hnot]
      simp
    · split
      · rename_i hge heq
        subst heq
        have hmem : k ∈ ((k, pv) :: t).map Prod.fst := by simp
        rw [if_pos hmem]
        simp
      · rename_i hge hne
        have hpk : pk < k := by omega
        simp only [List.length_cons, ih ht, List.map_cons, List.mem_cons]
        by_cases hk : k ∈ t.map Prod.fst
        · rw [if_pos hk, if_pos (Or.inr hk)]
        · rw [if_neg hk, if_neg (by rintro (rfl | h2) <;> [omega; exact hk h2])]

theorem lookupA_insert_self {β : Type} (k : Nat) (v : β) (m : List (Nat × β)) :
    lookupA k (insertSorted k v m) = some v := by
  induction m with
  | nil => simp [insertSorted, lookupA]
  | cons p t ih =>
    obtain ⟨pk, pv⟩ := p
    unfold insertSorted
    split
    · simp [lookupA]
    · split
      · simp [lookupA]
      · rename_i hge hne
        have : pk ≠ k := fun he => hne he.symm
        simp only [lookupA, if_neg this]
        exact ih

theorem lookupA_insert_ne {β : Type} (k j : Nat) (v : β) (m : List (Nat × β))
    (hne : j ≠ k) :
    lookupA j (insertSorted k v m) = lookupA j m := by
  induction m with
  | nil =>
    simp only [insertSorted, lookupA]
    rw [if_neg (fun he : k = j => hne he.symm)]
  | cons p t ih =>
    obtain ⟨pk, pv⟩ := p
    unfold insertSorted
    split
    · simp only [lookupA, if_neg (fun he : k = j => hne he.symm)]
    · split
      · rename_i hge heq
        subst heq
        simp only [lookupA, if_neg (fun he : k = j => hne he.symm)]
      · simp only [lookupA]
        split
        · rfl
        · exact ih

theorem lookupA_some_mem_keys {β : Type} {k : Nat} {m : List (Nat × β)} {v : β}
    (h : lookupA k m = some v) : k ∈ m.map Prod.fst := by
  induction m with
  | nil => cases h
  | cons p t ih =>
    unfold lookupA at h
    split at h
    · rename_i he
      simp [← he]
    · simp only [List.map_cons, List.mem_cons]
      exact Or.inr (ih h)

theorem insertSorted_snd_mem {β : Type} (k : Nat) (v : β) (m : List (Nat × β)) :
    ∀ w ∈ (insertSorted k v m).map Prod.snd, w = v ∨ w ∈ m.map Prod.snd := by
  induction m with
  | nil =>
    intro w hw
    simp only [insertSorted, List.map_cons, List.map_nil, List.mem_cons,
      List.not_mem_nil, or_false] at hw
    exact Or.inl hw
  | cons p t ih =>
    intro w hw
    obtain ⟨pk, pv⟩ := p
    unfold insertSorted at hw
    split at hw
    · simp only [List.map_cons, List.mem_cons] at hw ⊢
      tauto
    · split at hw
      · simp only [List.map_cons, List.mem_cons] at hw ⊢
        tauto
      · simp only [List.map_cons, List.mem_cons] at hw ⊢
        rcases hw with hw | hw
        · tauto
        · rcases ih w hw with h2 | h2 <;> tauto

theorem insert_lang_replaces (loc : ResourceLocation) (inner : List (Nat × ResourceLocation))
    (h : inner.map Prod.fst = [0x409] ∨ inner = []) :
    insertSorted 0x409 loc inner = [(0x409, loc)] := by
  rcases h with h | rfl
  · cases inner with
    | nil => cases h
    | cons p t =>
      obtain ⟨pk, pv⟩ := p
      simp only [List.map_cons] at h
      injection h with h1 h2
      have ht : t = [] := List.map_eq_nil_iff.mp h2
      subst ht
      subst h1
      simp [insertSorted]
  · simp [insertSorted]

theorem snd_mem_of_mem {β : Type} {m : List (Nat × β)} {p : Nat × β} (hp : p ∈ m) :
    p.2 ∈ m.map Prod.snd :=
  List.mem_map_of_mem Prod.snd hp

theorem value_of_snd_mem {β : Type} {m : List (Nat × β)} {v : β}
    (hv : v ∈ m.map Prod.snd) : ∃ p ∈ m, p.2 = v := by
  rcases List.mem_map.mp hv with ⟨p, hp, hpv⟩
  exact ⟨p, hp, hpv⟩

theorem addResource_sorted_step (c : Coff2State) (ty : ResourceType) (id : Nat)
    (payload : List Nat)
    (h1 : List.Pairwise (· < ·) (c.table.map Prod.fst))
    (h2 : ∀ p ∈ c.table, List.Pairwise (· < ·) (p.2.map Prod.fst))
    (h3 : ∀ p ∈ c.table, ∀ q ∈ p.2, q.2.map Prod.fst = [0x409]) :
    List.Pairwise (· < ·) ((addResource c ty id payload).table.map Prod.fst) ∧
    (∀ p ∈ (addResource c ty id payload).table,
      List.Pairwise (· < ·) (p.2.map Prod.fst)) ∧
    (∀ p ∈ (addResource c ty id payload).table, ∀ q ∈ p.2,
      q.2.map Prod.fst = [0x409]) := by
  have hOldMidPw : List.Pairwise (· < ·)
      (((lookupA ty.toU16 c.table).getD []).map Prod.fst) := by
    cases hm : lookupA ty.toU16 c.table with
    | none => simp
    | some mid0 =>
      simp only [Option.getD_some]
      obtain ⟨p, hp, hpv⟩ := value_of_snd_mem (lookupA_mem hm)
      rw [← hpv]
      exact h2 p hp
  have hOldMidLang : ∀ q ∈ (lookupA ty.toU16 c.table).getD [],
      q.2.map Prod.fst = [0x409] := by
    cases hm : lookupA ty.toU16 c.table with
    | none => simp
    | some mid0 =>
      simp only [Option.getD_some]
      intro q hq
      obtain ⟨p, hp, hpv⟩ := value_of_snd_mem (lookupA_mem hm)
      exact h3 p hp q (by rw [hpv]; exact hq)
  have hOldInner : (((lookupA id ((lookupA ty.toU16 c.table).getD [])).getD
      []).map Prod.fst = [0x409]) ∨
      ((lookupA id ((lookupA ty.toU16 c.table).getD [])).getD [] = []) := by
    cases hi : lookupA id ((lookupA ty.toU16 c.table).getD []) with
    | none => simp
    | some inner0 =>
      simp only [Option.getD_some]
      obtain ⟨q, hq, hqv⟩ := value_of_snd_mem (lookupA_mem hi)
      exact Or.inl (by rw [← hqv]; exact hOldMidLang q hq)
  simp only [addResource, updateAssoc]
  refine ⟨insertSorted_pairwise _ _ _ h1, ?_, ?_⟩
  · intro p hp
    rcases insertSorted_snd_mem _ _ _ p.2 (snd_mem_of_mem hp) with hv | hv
    · rw [hv]
      exact insertSorted_pairwise _ _ _ hOldMidPw
    · obtain ⟨p0, hp0, hp0v⟩ := value_of_snd_mem hv
      rw [← hp0v]
      exact h2 p0 hp0
  · intro p hp q hq
    rcases insertSorted_snd_mem _ _ _ p.2 (snd_mem_of_mem hp) with hv | hv
    · rw [hv] at hq
      rcases insertSorted_snd_mem _ _ _ q.2 (snd_mem_of_mem hq) with hw | hw
      · rw [hw, insert_lang_replaces _ _ hOldInner]
        simp
      · obtain ⟨q0, hq0, hq0v⟩ := value_of_snd_mem hw
        rw [← hq0v]
        exact hOldMidLang q0 hq0
    · obtain ⟨p0, hp0, hp0v⟩ := value_of_snd_mem hv
      refine h3 p0 hp0 q ?_
      rw [hp0v]
      exact hq

theorem foldl_table_sorted (adds : List AddCall) :
    ∀ c : Coff2State,
      List.Pairwise (· < ·) (c.table.map Prod.fst) →
      (∀ p ∈ c.table, List.Pairwise (· < ·) (p.2.map Prod.fst)) →
      (∀ p ∈ c.table, ∀ q ∈ p.2, q.2.map Prod.fst = [0x409]) →
      List.Pairwise (· < ·)
        ((adds.foldl (fun c a => addResource c a.ty a.id a.payload) c).table.map Prod.fst) ∧
      (∀ p ∈ (adds.foldl (fun c a => addResource c a.ty a.id a.payload) c).table,
        List.Pairwise (· < ·) (p.2.map Prod.fst)) ∧
      (∀ p ∈ (adds.foldl (fun c a => addResource c a.ty a.id a.payload) c).table,
        ∀ q ∈ p.2, q.2.map Prod.fst = [0x409]) := by
  induction adds with
  | nil => intro c h1 h2 h3; exact ⟨h1, h2, h3⟩
  | cons a rest ih =>
    intro c h1 h2 h3
    obtain ⟨g1, g2, g3⟩ := addResource_sorted_step c a.ty a.id a.payload h1 h2 h3
    exact ih (addResource c a.ty a.id a.payload) g1 g2 g3

theorem foldl_table_keys (adds : List AddCall) :
    ∀ (c : Coff2State) (k : Nat),
      k ∈ (adds.foldl (fun c a => addResource c a.ty a.id a.payload) c).table.map Prod.fst ↔
        k ∈ c.table.map Prod.fst ∨ k ∈ adds.map (fun a => a.ty.toU16) := by
  induction adds with
  | nil =>
    intro c k
    simp
  | cons a rest ih =>
    intro c k
    simp only [List.foldl_cons]
    rw [ih (addResource c a.ty a.id a.payload) k]
    have : k ∈ (addResource c a.ty a.id a.payload).table.map Prod.fst ↔
        k = a.ty.toU16 ∨ k ∈ c.table.map Prod.fst := by
      simp only [addResource, updateAssoc]
      exact insertSorted_keys_mem _ _ _ _
    rw [this]
    simp only [List.map_cons, List.mem_cons]
    tauto

theorem foldl_mid_keys (adds : List AddCall) :
    ∀ (c : Coff2State) (K : Nat) (mid : List (Nat × List (Nat × ResourceLocation))),
      lookupA K (adds.foldl (fun c a => addResource c a.ty a.id a.payload) c).table =
        some mid →
      ∀ i, i ∈ mid.map Prod.fst ↔
        ((∃ mid0, lookupA K c.table = some mid0 ∧ i ∈ mid0.map Prod.fst) ∨
          i ∈ (adds.filter (fun a => a.ty.toU16 == K)).map (fun a => a.id)) := by
  induction adds with
  | nil =>
    intro c K mid h i
    simp only [List.foldl_nil] at h
    simp only [List.filter_nil, List.map_nil, List.not_mem_nil, or_false]
    constructor
    · intro hi
      exact ⟨mid, h, hi⟩
    · rintro ⟨mid0, hm0, hi⟩
      rw [h] at hm0
      cases hm0
      exact hi
  | cons a rest ih =>
    intro c K mid h i
    simp only [List.foldl_cons] at h
    rw [ih (addResource c a.ty a.id a.payload) K mid h i]
    by_cases hK : a.ty.toU16 = K
    · have hlook : lookupA K (addResource c a.ty a.id a.payload).table =
          some (insertSorted a.id
            (insertSorted 0x409
              ⟨c.data.currentPosition,
                (fwWriteBytes c.data a.payload).currentPosition - c.data.currentPosition,
                c.symbols.length⟩
              ((lookupA a.id ((lookupA a.ty.toU16 c.table).getD [])).getD []))
            ((lookupA a.ty.toU16 c.table).getD [])) := by
        simp only [addResource, updateAssoc]
        rw [hK]
        exact lookupA_insert_self _ _ _
      have hfil : ((a :: rest).filter (fun a => a.ty.toU16 == K)).map (fun a => a.id) =
          a.id :: (rest.filter (fun a => a.ty.toU16 == K)).map (fun a => a.id) := by
        simp [List.filter_cons, hK]
      rw [hfil]
      constructor
      · rintro (⟨mid0, hm0, hi⟩ | hi)
        · rw [hlook] at hm0
          cases hm0
          rcases (insertSorted_keys_mem _ _ _ _).mp hi with rfl | hi2
          · exact Or.inr (List.mem_cons_self _ _)
          · cases hmc : lookupA K c.table with
            | none =>
              rw [hK] at hi2
              rw [hmc] at hi2
              simp at hi2
            | some mid1 =>
              rw [hK] at hi2
              rw [hmc] at hi2
              simp only [Option.getD_some] at hi2
              exact Or.inl ⟨mid1, rfl, hi2⟩
        · exact Or.inr (List.mem_cons_of_mem _ hi)
      · rintro (⟨mid0, hm0, hi⟩ | hi)
        · refine Or.inl ⟨_, hlook, ?_⟩
          rw [insertSorted_keys_mem]
          rw [hK, hm0]
          simp only [Option.getD_some]
          exact Or.inr hi
        · rcases List.mem_cons.mp hi with rfl | hi2
          · refine Or.inl ⟨_, hlook, ?_⟩
            rw [insertSorted_keys_mem]
            exact Or.inl rfl
          · exact Or.inr hi2
    · have hlook : lookupA K (addResource c a.ty a.id a.payload).table =
          lookupA K c.table := by
        simp only [addResource, updateAssoc]
        exact lookupA_insert_ne _ _ _ _ (fun he => hK he.symm)
      have hfil : (a :: rest).filter (fun a => a.ty.toU16 == K) =
          rest.filter (fun a => a.ty.toU16 == K) := by
        simp [List.filter_cons, hK]
      rw [hlook, hfil]

theorem buildCoff_table_sorted (t : TargetType) (adds : List AddCall) :
    List.Pairwise (· < ·) ((buildCoff t adds).table.map Prod.fst) ∧
    (∀ p ∈ (buildCoff t adds).table, List.Pairwise (· < ·) (p.2.map Prod.fst)) ∧
    (∀ p ∈ (buildCoff t adds).table, ∀ q ∈ p.2, q.2.map Prod.fst = [0x409]) := by
  unfold buildCoff
  exact foldl_table_sorted adds (coffNew t)
    (by simp [coffNew]) (by simp [coffNew]) (by simp [coffNew])

theorem buildCoff_keys (t : TargetType) (adds : List AddCall) (k : Nat) :
    k ∈ (buildCoff t adds).table.map Prod.fst ↔
      k ∈ adds.map (fun a => a.ty.toU16) := by
  unfold buildCoff
  rw [foldl_table_keys]
  simp [coffNew]

theorem buildCoff_mid_keys (t : TargetType) (adds : List AddCall) (K : Nat)
    (mid : List (Nat × List (Nat × ResourceLocation)))
    (h : lookupA K (buildCoff t adds).table = some mid) :
    ∀ i, i ∈ mid.map Prod.fst ↔
      i ∈ (adds.filter (fun a => a.ty.toU16 == K)).map (fun a => a.id) := by
  intro i
  unfold buildCoff at h
  rw [foldl_mid_keys adds (coffNew t) K mid h i]
  simp [coffNew, lookupA]

theorem addResource_replaces (t : TargetType) (adds : List AddCall)
    (ty : ResourceType) (id : Nat) (payload : List Nat)
    (mid : List (Nat × List (Nat × ResourceLocation)))
    (hmid : lookupA ty.toU16 (buildCoff t adds).table = some mid)
    (hid : (lookupA id mid).isSome) :
    (addResource (buildCoff t adds) ty id payload).table.length =
      (buildCoff t adds).table.length ∧
    ∃ mid2,
      lookupA ty.toU16 (addResource (buildCoff t adds) ty id payload).table = some mid2 ∧
      mid2.length = mid.length ∧
      lookupA id mid2 = some [(0x409,
        ⟨(buildCoff t adds).data.currentPosition, payload.length,
          (buildCoff t adds).symbols.length⟩)] := by
  obtain ⟨h1, h2, h3⟩ := buildCoff_table_sorted t adds
  have hKmem : ty.toU16 ∈ (buildCoff t adds).table.map Prod.fst :=
    lookupA_some_mem_keys hmid
  obtain ⟨inner0, hinner⟩ := Option.isSome_iff_exists.mp hid
  have hidmem : id ∈ mid.map Prod.fst := lookupA_some_mem_keys hinner
  have hmidPw : List.Pairwise (· < ·) (mid.map Prod.fst) := by
    obtain ⟨p, hp, hpv⟩ := value_of_snd_mem (lookupA_mem hmid)
    rw [← hpv]
    exact h2 p hp
  have hinner0keys : inner0.map Prod.fst = [0x409] := by
    obtain ⟨p, hp, hpv⟩ := value_of_snd_mem (lookupA_mem hmid)
    obtain ⟨q, hq, hqv⟩ := value_of_snd_mem (lookupA_mem hinner)
    have h4 := h3 p hp q (by rw [hpv]; exact hq)
    rw [hqv] at h4
    exact h4
  constructor
  · simp only [addResource, updateAssoc]
    rw [insertSorted_length _ _ _ h1, if_pos hKmem]
  · simp only [addResource, updateAssoc]
    refine ⟨_, lookupA_insert_self _ _ _, ?_, ?_⟩
    · simp only [hmid, Option.getD_some]
      rw [insertSorted_length _ _ _ hmidPw, if_pos hidmem]
    · simp only [hmid, Option.getD_some, hinner]
      rw [insert_lang_replaces _ _ (Or.inl hinner0keys)]
      rw [lookupA_insert_self]
      rw [fwWriteBytes_pos, Nat.add_sub_cancel_left]

set_option maxHeartbeats 1000000 in
/-- C10: in every coff2 table built by add_resource calls, the directory
keys at the type, id and language levels are strictly ascending (hence
distinct), every language node is exactly the single 0x0409 entry, the
keys present at the type and id levels are exactly the registered types
and ids (so NumberOfIdEntries, written as the node list length, counts the
distinct registered ids), and re-adding an already present
(type, id, language) replaces the stored location without growing any
directory node. -/
theorem coff_directory_tree_invariants :
    (∀ (t : TargetType) (adds : List AddCall),
      List.Pairwise (· < ·) ((buildCoff t adds).table.map Prod.fst) ∧
      (∀ p ∈ (buildCoff t adds).table, List.Pairwise (· < ·) (p.2.map Prod.fst)) ∧
      (∀ p ∈ (buildCoff t adds).table, ∀ q ∈ p.2, q.2.map Prod.fst = [0x409])) ∧
    (∀ (t : TargetType) (adds : List AddCall) (k : Nat),
      k ∈ (buildCoff t adds).table.map Prod.fst ↔
        k ∈ adds.map (fun a => a.ty.toU16)) ∧
    (∀ (t : TargetType) (adds : List AddCall) (K : Nat)
        (mid : List (Nat × List (Nat × ResourceLocation))),
      lookupA K (buildCoff t adds).table = some mid →
      ∀ i, i ∈ mid.map Prod.fst ↔
        i ∈ (adds.filter (fun a => a.ty.toU16 == K)).map (fun a => a.id)) ∧
    (∀ (t : TargetType) (adds : List AddCall) (ty : ResourceType) (id : Nat)
        (payload : List Nat) (mid : List (Nat × List (Nat × ResourceLocation))),
      lookupA ty.toU16 (buildCoff t adds).table = some mid →
      (lookupA id mid).isSome →
      (addResource (buildCoff t adds) ty id payload).table.length =
        (buildCoff t adds).table.length ∧
      ∃ mid2,
        lookupA ty.toU16 (addResource (buildCoff t adds) ty id payload).table =
          some mid2 ∧
        mid2.length = mid.length ∧
        lookupA id mid2 = some [(0x409,
          ⟨(buildCoff t adds).data.currentPosition, payload.length,
            (buildCoff t adds).symbols.length⟩)]) :=
  ⟨buildCoff_table_sorted, buildCoff_keys, buildCoff_mid_keys, addResource_replaces⟩

theorem coff_directory_tree_invariants_witness :
    ((1 : Nat) ∈ ([(1, [(1033, (⟨8, 2, 5⟩ : ResourceLocation))])] :
        List (Nat × List (Nat × ResourceLocation))).map Prod.fst ↔
      (1 : Nat) ∈ ((([⟨ResourceType.manifest, 1, [7, 7, 7]⟩,
          ⟨ResourceType.manifest, 1, [8, 8]⟩] : List AddCall).filter
          (fun a => a.ty.toU16 == 24)).map (fun a => a.id))) ∧
    (addResource (buildCoff TargetType.x8664 [⟨ResourceType.manifest, 1, [7, 7, 7]⟩])
        ResourceType.manifest 1 [8, 8]).table.length =
      (buildCoff TargetType.x8664 [⟨ResourceType.manifest, 1, [7, 7, 7]⟩]).table.length :=
  ⟨coff_directory_tree_invariants.2.2.1 TargetType.x8664
      [⟨ResourceType.manifest, 1, [7, 7, 7]⟩, ⟨ResourceType.manifest, 1, [8, 8]⟩] 24
      [(1, [(1033, ⟨8, 2, 5⟩)])] (by decide) 1,
    (coff_directory_tree_invariants.2.2.2 TargetType.x8664
      [⟨ResourceType.manifest, 1, [7, 7, 7]⟩] ResourceType.manifest 1 [8, 8]
      [(1, [(1033, ⟨0, 3, 4⟩)])] (by decide) (by decide)).1⟩

end Embedinator
